import Mathlib

/-!
Shallow embedding of the `gc` crate (`src/gc/src/lib.rs`): a mark-and-sweep
garbage collector exposed through the rooted handle type `Gc<T>`.

Machine addresses of `GcBox` allocations are modelled as natural numbers
(`Addr`); the identity of each live `Gc<T>` handle value (stack-held or
embedded in a managed value) is modelled as a natural number (`HId`).
The heap is the set of live `GcBox` allocations, as an association list from
addresses to boxes; registry membership is the `next_allocation` chain
starting at `first_alloc`, exactly as in the intrusive linked list of the
source.  A managed value's outgoing `Gc<_>` fields (what its `GcAble`
implementation iterates over) are the list `val` of handle identifiers.
`u32` root counts are natural numbers kept below `2^32` by the modelled
`checked_add`.  A Rust panic is modelled as `none`.
-/

/-- Allocation address of a `GcBox` (`NonNull<GcBox<dyn GcAble>>`). -/
abbrev Addr := Nat

/-- Identity of one live `Gc<T>` handle value. -/
abbrev HId := Nat

/-- `GcBoxHeader` (lib.rs lines 147-152): mark bit, root count and the
intrusive registry link.  The mutexes guard plain data; their contents are
modelled directly. -/
structure GcBoxHeader where
  marked : Bool
  root_count : Nat
  next_allocation : Option Addr
deriving DecidableEq, Repr

/-- `GcBox<T>` (lib.rs lines 176-180): header plus the managed value.  Of the
value only its outgoing `Gc<_>` fields matter to the collector, so `val` is
the list of embedded handle identifiers (what the value's `GcAble`
implementation iterates over, in order). -/
structure GcBox where
  header : GcBoxHeader
  val : List HId
deriving DecidableEq, Repr

/-- `Gc<T>` (lib.rs lines 215-218): per-handle root flag plus the pointer to
the shared `GcBox`. -/
structure Gc where
  is_root : Bool
  gcbox : Addr
deriving DecidableEq, Repr

/-- Association-list lookup: first binding of the key wins (pointer identity
in the source makes keys unique in practice). -/
def alGet : List (Nat × α) → Nat → Option α
  | [], _ => none
  | (k, v) :: rest, key => if k = key then some v else alGet rest key

/-- Association-list in-place update of an existing binding. -/
def alSet : List (Nat × α) → Nat → α → List (Nat × α)
  | [], _, _ => []
  | (k, v) :: rest, key, w => if k = key then (k, w) :: rest else (k, v) :: alSet rest key w

/-- Association-list deletion of a binding (deallocation of a `GcBox`, or a
handle reaching the end of its lifetime). -/
def alDel : List (Nat × α) → Nat → List (Nat × α)
  | [], _ => []
  | (k, v) :: rest, key => if k = key then rest else (k, v) :: alDel rest key

/-- Global collector state: all live `GcBox` allocations, all live `Gc`
handle values, and `GcAlloc.first_alloc` (lib.rs line 40), the head of the
intrusive registry list. -/
structure GcState where
  heap : List (Addr × GcBox)
  handles : List (HId × Gc)
  first_alloc : Option Addr
deriving DecidableEq, Repr

/-- The process-wide state before any allocation. -/
def emptyGcState : GcState := ⟨[], [], none⟩

/-- `<PosOne as IncOrDec>::get` (lib.rs lines 198-203). -/
def PosOne.get : Int := 1

/-- `<NegOne as IncOrDec>::get` (lib.rs lines 208-213): the source returns
the literal `1`, not `-1`. -/
def NegOne.get : Int := 1

/-- `u32::MAX`. -/
def u32Max : Nat := 4294967295

/-- `u32::checked_add(1)`: `none` models arithmetic overflow. -/
def checkedAdd1 (rc : Nat) : Option Nat :=
  if rc < u32Max then some (rc + 1) else none

/-- Replace the root count of the box at `a`. -/
def setRootCount (s : GcState) (a : Addr) (rc : Nat) : GcState :=
  match alGet s.heap a with
  | none => s
  | some b => { s with heap := alSet s.heap a { b with header := { b.header with root_count := rc } } }

/-- `Gc::change_root_count::<Delta>` (lib.rs lines 279-292), with
`delta = Delta::get()`.  The `-1` arm performs the `u32` subtraction (whose
underflow panics); the `1` arm is `checked_add(1).unwrap()`; any other value
is `unreachable!()`.  `none` models a panic. -/
def change_root_count (delta : Int) (s : GcState) (a : Addr) : Option GcState :=
  match alGet s.heap a with
  | none => none
  | some b =>
    if delta = -1 then
      if b.header.root_count = 0 then none
      else some (setRootCount s a (b.header.root_count - 1))
    else if delta = 1 then
      match checkedAdd1 b.header.root_count with
      | none => none
      | some rc => some (setRootCount s a rc)
    else none

/-- `Gc::inc_root_count` (lib.rs lines 273-275), acting through handle `hid`. -/
def Gc.inc_root_count (s : GcState) (hid : HId) : Option GcState :=
  match alGet s.handles hid with
  | none => none
  | some h => change_root_count PosOne.get s h.gcbox

/-- `Gc::dec_root_count` (lib.rs lines 276-278), acting through handle `hid`. -/
def Gc.dec_root_count (s : GcState) (hid : HId) : Option GcState :=
  match alGet s.handles hid with
  | none => none
  | some h => change_root_count NegOne.get s h.gcbox

/-- Overwrite the `is_root` flag of handle `hid`. -/
def setIsRoot (s : GcState) (hid : HId) (b : Bool) : GcState :=
  match alGet s.handles hid with
  | none => s
  | some h => { s with handles := alSet s.handles hid { h with is_root := b } }

/-- `Gc::set_not_root` (lib.rs lines 266-272): if the handle is rooted,
`dec_root_count`; in all cases clear `is_root`. -/
def Gc.set_not_root (s : GcState) (hid : HId) : Option GcState :=
  match alGet s.handles hid with
  | none => none
  | some h =>
    (if h.is_root then Gc.dec_root_count s hid else some s).map
      fun s1 => setIsRoot s1 hid false

/-- `<T as GcAble>::set_not_root` for a value whose `Gc<_>` fields are
`fids`: calls `Gc::set_not_root` on each field in order (cf. the `GcAble`
contract, lib.rs lines 334-343). -/
def GcAble.set_not_root (s : GcState) (fids : List HId) : Option GcState :=
  fids.foldlM Gc.set_not_root s

/-- `<Gc<T> as Clone>::clone` (lib.rs lines 295-303): `inc_root_count`, then
a new handle with `is_root = true` aimed at the same box.  The fresh-identity
guard models that a newly constructed Rust value is distinct from every live
one. -/
def Gc.clone (s : GcState) (hid : HId) (newId : HId) : Option GcState :=
  match alGet s.handles hid with
  | none => none
  | some h =>
    if (alGet s.handles newId).isSome then none
    else
      (change_root_count PosOne.get s h.gcbox).map fun s1 =>
        { s1 with handles := (newId, ⟨true, h.gcbox⟩) :: s1.handles }

/-- `<Gc<T> as Drop>::drop` (lib.rs lines 305-311): if rooted,
`dec_root_count`; the handle then ceases to exist. -/
def Gc.drop (s : GcState) (hid : HId) : Option GcState :=
  match alGet s.handles hid with
  | none => none
  | some h =>
    (if h.is_root then Gc.dec_root_count s hid else some s).map
      fun s1 => { s1 with handles := alDel s1.handles hid }

/-- `GcAlloc::register_gcbox` (lib.rs lines 76-86): panic (`none`) when the
box's `next_allocation` field is already filled; otherwise link the box in at
the head of the registry list. -/
def register_gcbox (s : GcState) (a : Addr) : Option GcState :=
  match alGet s.heap a with
  | none => none
  | some b =>
    if b.header.next_allocation.isSome then none
    else
      some { s with
        heap := alSet s.heap a
          { b with header := { b.header with next_allocation := s.first_alloc } },
        first_alloc := some a }

/-- `Gc::from_box` (lib.rs lines 230-249): run `set_not_root()` on the value,
leak a fresh `GcBox` with `marked = false`, `root_count = 1`,
`next_allocation = None`, register it, and return a handle with
`is_root = true`.  The two freshness guards model that `Box::leak` yields an
address distinct from every live allocation and that the returned `Gc` is a
brand-new value. -/
def Gc.from_box (s : GcState) (valFields : List HId) (newAddr : Addr) (newHId : HId) :
    Option GcState :=
  if (alGet s.heap newAddr).isSome then none
  else if (alGet s.handles newHId).isSome then none
  else
    (GcAble.set_not_root s valFields).bind fun s1 =>
      let s2 := { s1 with heap := (newAddr, ⟨⟨false, 1, none⟩, valFields⟩) :: s1.heap }
      (register_gcbox s2 newAddr).map fun s3 =>
        { s3 with handles := (newHId, ⟨true, newAddr⟩) :: s3.handles }

/-- `Gc::new` (lib.rs lines 227-229) is `Gc::from_box (Box::new val)`. -/
def Gc.new (s : GcState) (valFields : List HId) (newAddr : Addr) (newHId : HId) :
    Option GcState :=
  Gc.from_box s valFields newAddr newHId

/-- Set the mark bit of the box at `a` (`GcBoxHeader::mark` /
`GcBoxHeader::unmark`, lib.rs lines 167-173). -/
def setMarked (s : GcState) (a : Addr) (m : Bool) : GcState :=
  match alGet s.heap a with
  | none => s
  | some b => { s with heap := alSet s.heap a { b with header := { b.header with marked := m } } }

/-- `GcBoxHeader::is_rooted` (lib.rs lines 160-162). -/
def GcBoxHeader.is_rooted (h : GcBoxHeader) : Bool := decide (0 < h.root_count)

/-- `Gc::mark` (lib.rs lines 258-265): stop if the target box is already
marked, otherwise mark it and invoke `val.mark()`, i.e. `Gc::mark` on every
embedded handle in order.  `fuel` bounds the recursion depth; `none` means
the bound was hit (or a dangling lookup). -/
def Gc.mark : Nat → GcState → HId → Option GcState
  | 0, _, _ => none
  | fuel + 1, s, hid =>
    match alGet s.handles hid with
    | none => none
    | some h =>
      match alGet s.heap h.gcbox with
      | none => none
      | some b =>
        if b.header.marked then some s
        else
          let s1 := setMarked s h.gcbox true
          b.val.foldlM (fun st hid2 => Gc.mark fuel st hid2) s1

/-- Extract the registry order by walking the `next_allocation` chain from a
starting link, as `GcAlloc::for_each_alloc` (lib.rs lines 60-73) does;
`fuel` bounds the walk (in the source a cyclic chain loops forever). -/
def chainOf : Nat → GcState → Option Addr → Option (List Addr)
  | 0, _, _ => none
  | _, _, none => some []
  | fuel + 1, s, some a =>
    match alGet s.heap a with
    | none => none
    | some b => (chainOf fuel s b.header.next_allocation).map (a :: ·)

/-- The unmark pass of `GcAlloc::mark_sweep` (lib.rs lines 90-95): clear the
mark bit of every registered box, no recursion. -/
def unmarkAll (s : GcState) (order : List Addr) : GcState :=
  order.foldl (fun st a => setMarked st a false) s

/-- One step of the mark pass (lib.rs lines 96-104): if the box at `a` is
rooted, mark its header and invoke `val.mark()`, i.e. `Gc::mark` on every
embedded handle. -/
def markRootStep (fuel : Nat) (s : GcState) (a : Addr) : Option GcState :=
  match alGet s.heap a with
  | none => none
  | some b =>
    if b.header.is_rooted then
      let s1 := setMarked s a true
      b.val.foldlM (fun st hid => Gc.mark fuel st hid) s1
    else some s

/-- The mark pass of `GcAlloc::mark_sweep`: `markRootStep` on every
registered box in registry order. -/
def markPhase (fuel : Nat) (s : GcState) (order : List Addr) : Option GcState :=
  order.foldlM (markRootStep fuel) s

/-- Dropping the boxed value during `remove_allocation` (lib.rs lines
110-120): `Box::from_raw` drops the managed value, which drops each embedded
`Gc` handle in turn (running `<Gc<T> as Drop>::drop`). -/
def dropBoxVal (s : GcState) (fids : List HId) : Option GcState :=
  fids.foldlM Gc.drop s

/-- The sweep loop of `GcAlloc::mark_sweep` (lib.rs lines 122-143).  The
inner loop looks at the link cell `ptr_to_next` (always `first_alloc`: it is
never advanced before removal, and the outer `Some` arm is unreachable
because the inner loop only exits on `None`):
an unmarked head is removed (value dropped, box deallocated, link cell
rewritten to its successor); a marked head leaves the state unchanged and the
loop repeats.  One unit of `fuel` is one inner-loop iteration; `none` means
the loop was still running when the fuel ran out. -/
def sweepF : Nat → GcState → Option GcState
  | 0, _ => none
  | fuel + 1, s =>
    match s.first_alloc with
    | none => some s
    | some a =>
      match alGet s.heap a with
      | none => none
      | some b =>
        if b.header.marked then sweepF fuel s
        else
          (dropBoxVal s b.val).bind fun s1 =>
            sweepF fuel { s1 with heap := alDel s1.heap a,
                                  first_alloc := b.header.next_allocation }

/-- `GcAlloc::mark_sweep` (lib.rs lines 89-144): unmark every registered box,
mark from the roots, then sweep.  `force_collect` (lib.rs lines 26-28) is
exactly one such call on the global state. -/
def mark_sweep (fuelChain fuelMark fuelSweep : Nat) (s : GcState) : Option GcState :=
  (chainOf fuelChain s s.first_alloc).bind fun order =>
    (markPhase fuelMark (unmarkAll s order) order).bind fun s2 =>
      sweepF fuelSweep s2

/-- Number of live rooted handles referencing the box at `a` — the quantity
the spec's root-count invariant compares `root_count` against. -/
def rootedHandleCount (s : GcState) (a : Addr) : Nat :=
  (s.handles.filter fun p => p.2.is_root && decide (p.2.gcbox = a)).length

theorem alGet_cons_ne {α : Type} (k k2 : Nat) (v : α) (l : List (Nat × α))
    (h : k2 ≠ k) : alGet ((k, v) :: l) k2 = alGet l k2 := by
  have hne : ¬ k = k2 := fun h2 => h h2.symm
  simp [alGet, hne]

theorem alGet_alSet_self {α : Type} (l : List (Nat × α)) (k : Nat) (v w : α)
    (h : alGet l k = some v) : alGet (alSet l k w) k = some w := by
  induction l with
  | nil => simp [alGet] at h
  | cons p rest ih =>
    obtain ⟨pk, pv⟩ := p
    by_cases hk : pk = k
    · simp [alSet, hk, alGet]
    · simp [alGet, hk] at h
      simp [alSet, hk, alGet, ih h]

theorem alGet_alSet_ne {α : Type} (l : List (Nat × α)) (k k2 : Nat) (w : α)
    (h : k2 ≠ k) : alGet (alSet l k w) k2 = alGet l k2 := by
  induction l with
  | nil => simp [alSet]
  | cons p rest ih =>
    obtain ⟨pk, pv⟩ := p
    by_cases hk : pk = k
    · subst hk
      have hne : ¬ pk = k2 := fun h2 => h h2.symm
      simp [alSet, alGet, hne]
    · simp [alSet, hk, alGet, ih]

theorem alGet_alSet_of_none {α : Type} (l : List (Nat × α)) (k k2 : Nat) (w : α)
    (h : alGet l k2 = none) : alGet (alSet l k w) k2 = none := by
  by_cases hk : k2 = k
  · subst hk
    induction l with
    | nil => simp [alSet, alGet]
    | cons p rest ih =>
      obtain ⟨pk, pv⟩ := p
      by_cases hpk : pk = k2
      · rw [hpk] at h
        simp [alGet] at h
      · simp [alGet, hpk] at h
        simp [alSet, hpk, alGet, ih h]
  · rw [alGet_alSet_ne l k k2 w hk]
    exact h

theorem alGet_mem {α : Type} (l : List (Nat × α)) (k : Nat) (v : α)
    (h : alGet l k = some v) : (k, v) ∈ l := by
  induction l with
  | nil => simp [alGet] at h
  | cons p rest ih =>
    obtain ⟨pk, pv⟩ := p
    by_cases hk : pk = k
    · subst hk
      simp [alGet] at h
      simp [h]
    · simp [alGet, hk] at h
      exact List.mem_cons_of_mem _ (ih h)

/-- Chain a reflexive-transitive relation along `List.foldlM` in the
`Option` monad: if every successful step satisfies `P`, so does the whole
fold. -/
theorem foldlM_rel {α : Type} {P : GcState → GcState → Prop}
    (hrefl : ∀ s, P s s)
    (htrans : ∀ {s t u : GcState}, P s t → P t u → P s u)
    (f : GcState → α → Option GcState)
    (hf : ∀ s x s2, f s x = some s2 → P s s2) :
    ∀ (l : List α) (s s2 : GcState), List.foldlM f s l = some s2 → P s s2 := by
  intro l
  induction l with
  | nil =>
    intro s s2 h
    simp [List.foldlM] at h
    subst h
    exact hrefl s
  | cons x xs ih =>
    intro s s2 h
    rw [List.foldlM_cons] at h
    cases hfx : f s x with
    | none => rw [hfx] at h; simp at h
    | some t =>
      rw [hfx] at h
      rw [show ∀ (g : GcState → Option GcState), some t >>= g = g t from fun g => rfl] at h
      exact htrans (hf s x t hfx) (ih t s2 h)

/-- Models the application overwriting a managed value's handle fields through
interior mutability (e.g. the `RwLock<Option<Gc<_>>>` node variant in
`dbg_runner/src/main.rs`); this is a client-side write, not a library
operation, and it is how a reference cycle is closed. -/
def setVal (s : GcState) (a : Addr) (fids : List HId) : GcState :=
  match alGet s.heap a with
  | none => s
  | some b => { s with heap := alSet s.heap a { b with val := fids } }

/-- State right after `Gc::new` of a leaf value from a fresh process:
one registered box with `root_count = 1` and one rooted stack handle. -/
def oneBoxState : GcState :=
  ⟨[(0, ⟨⟨false, 1, none⟩, []⟩)], [(0, ⟨true, 0⟩)], some 0⟩

example : Gc.from_box emptyGcState [] 0 0 = some oneBoxState := by decide

/-- `oneBoxState` after the sole rooted handle is dropped: the root count
has gone UP to 2 (the `NegOne::get() = 1` bug) and no handle remains. -/
def oneBoxDropped : GcState :=
  ⟨[(0, ⟨⟨false, 2, none⟩, []⟩)], [], some 0⟩

/-- `oneBoxState` after `set_not_root` on its handle: the root count has
gone UP to 2 and the handle is demoted. -/
def oneBoxDemoted : GcState :=
  ⟨[(0, ⟨⟨false, 2, none⟩, []⟩)], [(0, ⟨false, 0⟩)], some 0⟩

/-- `oneBoxState` after a second `register_gcbox` of the already-registered
record: no panic occurred and the record now links to itself. -/
def oneBoxSelfLinked : GcState :=
  ⟨[(0, ⟨⟨false, 1, some 0⟩, []⟩)], [(0, ⟨true, 0⟩)], some 0⟩

/-- `oneBoxState` after its mark phase: the single box is rooted, hence
marked. -/
def oneBoxMarked : GcState :=
  ⟨[(0, ⟨⟨true, 1, none⟩, []⟩)], [(0, ⟨true, 0⟩)], some 0⟩

/-- If the record at the head of the registry list is marked, the sweep loop
of `GcAlloc::mark_sweep` never makes progress: the inner loop re-examines the
same link cell forever.  Modelled: `sweepF` exhausts any amount of fuel. -/
theorem sweepF_spin (s : GcState) (a : Addr) (b : GcBox)
    (hfa : s.first_alloc = some a) (hb : alGet s.heap a = some b)
    (hm : b.header.marked = true) : ∀ fuel, sweepF fuel s = none := by
  intro fuel
  induction fuel with
  | zero => rfl
  | succ n ih => simp [sweepF, hfa, hb, hm, ih]

/-- The two-node-cycle scenario of the spec, driven through the public
operations: construct node A (handle 0); clone it (handle 1) and construct
node B whose value holds that clone (stack handle 2); clone B's handle
(handle 3), demote it with `set_not_root` and store it into A's value (the
client-side interior-mutability write `setVal`), closing the cycle A → B → A;
finally drop both stack handles.  No rooted handle to either node remains. -/
def cycleTrace : Option GcState :=
  (Gc.from_box emptyGcState [] 0 0).bind fun s =>
  (Gc.clone s 0 1).bind fun s =>
  (Gc.from_box s [1] 1 2).bind fun s =>
  (Gc.clone s 2 3).bind fun s =>
  (Gc.set_not_root s 3).bind fun s =>
  (Gc.drop (setVal s 0 [3]) 0).bind fun s =>
  Gc.drop s 2

/-- Result of `cycleTrace`: both nodes carry `root_count = 4` (every
decrement path incremented instead), no rooted handle exists, and the two
values reference each other through the demoted handles 3 and 1. -/
def cycleFinal : GcState :=
  ⟨[(1, ⟨⟨false, 4, some 0⟩, [1]⟩), (0, ⟨⟨false, 4, none⟩, [3]⟩)],
   [(3, ⟨false, 1⟩), (1, ⟨false, 0⟩)], some 1⟩

/-- `cycleFinal` after the unmark and mark passes: both nodes are rooted
(`root_count = 4 > 0`), so both end up marked. -/
def cycleMarked : GcState :=
  ⟨[(1, ⟨⟨true, 4, some 0⟩, [1]⟩), (0, ⟨⟨true, 4, none⟩, [3]⟩)],
   [(3, ⟨false, 1⟩), (1, ⟨false, 0⟩)], some 1⟩

/-- C3: for the two-node cycle with no remaining rooted handle, one
`force_collect()` is claimed to deallocate both nodes, running each
destructor once.  In the code, every handle demotion and drop along the way
*raised* the root counts (`NegOne::get() = 1`), so both records enter the
collection rooted, the mark phase marks both, and the sweep loop then spins
forever on the marked head: `mark_sweep` never returns and neither value is
ever dropped. -/
theorem cycle_not_collected_bug :
    cycleTrace = some cycleFinal ∧
    rootedHandleCount cycleFinal 0 = 0 ∧ rootedHandleCount cycleFinal 1 = 0 ∧
    (alGet cycleFinal.heap 0).map (fun b => (b.header.root_count, b.val)) = some (4, [3]) ∧
    (alGet cycleFinal.heap 1).map (fun b => (b.header.root_count, b.val)) = some (4, [1]) ∧
    (alGet cycleFinal.handles 3).map (fun h => h.gcbox) = some 1 ∧
    (alGet cycleFinal.handles 1).map (fun h => h.gcbox) = some 0 ∧
    (chainOf 3 cycleFinal cycleFinal.first_alloc).bind
      (fun order => markPhase 3 (unmarkAll cycleFinal order) order) = some cycleMarked ∧
    (∀ fuel, sweepF fuel cycleMarked = none) ∧
    ∀ fuelSweep, mark_sweep 3 3 fuelSweep cycleFinal = none := by
  have hspin := sweepF_spin cycleMarked 1 ⟨⟨true, 4, some 0⟩, [1]⟩ rfl (by decide) rfl
  refine ⟨by decide, by decide, by decide, by decide, by decide, by decide, by decide,
    by decide, hspin, fun fuelSweep => ?_⟩
  have h1 : chainOf 3 cycleFinal cycleFinal.first_alloc = some [1, 0] := by decide
  have h2 : markPhase 3 (unmarkAll cycleFinal [1, 0]) [1, 0] = some cycleMarked := by decide
  simp [mark_sweep, h1, h2, hspin]

/-- C1: dropping a handle with `is_root = true` is claimed to decrement the
record's `root_count` by exactly one and to never deallocate directly.  The
code path `Drop → dec_root_count → change_root_count::<NegOne>` reads
`NegOne::get() = 1` (lib.rs line 211) and therefore takes the `checked_add`
arm: dropping the sole rooted handle to a fresh record takes `root_count`
from 1 to 2 instead of to 0.  (The second half of the claim does hold: the
record itself survives the drop.) -/
theorem drop_increments_root_count_bug :
    Gc.drop oneBoxState 0 = some oneBoxDropped ∧
    (alGet oneBoxDropped.heap 0).map (fun b => b.header.root_count) = some 2 ∧
    (alGet oneBoxDropped.heap 0).map (fun b => b.header.root_count) ≠ some 0 ∧
    (alGet oneBoxDropped.heap 0).isSome = true := by
  decide

/-- C2: the root-count invariant — `root_count` equals the number of live
rooted handles — is claimed to hold after any sequence of construct, clone,
drop and set_not_root operations.  The two-operation sequence
`Gc::new` then `drop` already violates it: no rooted handle remains, yet
`root_count = 2` (the drop increments instead of decrementing, because
`NegOne::get()` returns `1`). -/
theorem root_count_invariant_bug :
    Gc.drop oneBoxState 0 = some oneBoxDropped ∧
    rootedHandleCount oneBoxDropped 0 = 0 ∧
    (alGet oneBoxDropped.heap 0).map (fun b => b.header.root_count) = some 2 ∧
    (alGet oneBoxDropped.heap 0).map (fun b => b.header.root_count)
      ≠ some (rootedHandleCount oneBoxDropped 0) := by
  decide

/-- C9: `set_not_root` on a rooted handle is claimed to decrement
`root_count` and clear `is_root`.  On a fresh record with `root_count = 1`
the call instead raises `root_count` to 2 (via the `NegOne::get() = 1` bug),
though it does clear `is_root`, and the operation is indeed idempotent: a
second call returns the state unchanged. -/
theorem set_not_root_increments_bug :
    Gc.set_not_root oneBoxState 0 = some oneBoxDemoted ∧
    (alGet oneBoxDemoted.heap 0).map (fun b => b.header.root_count) = some 2 ∧
    (alGet oneBoxDemoted.heap 0).map (fun b => b.header.root_count) ≠ some 0 ∧
    alGet oneBoxDemoted.handles 0 = some ⟨false, 0⟩ ∧
    Gc.set_not_root oneBoxDemoted 0 = some oneBoxDemoted := by
  decide

/-- C7: registering the same record twice is claimed to always panic.  It
does when the record's `next_allocation` link is filled — but the very first
record registered into an empty registry has `next_allocation = None`
(lib.rs line 83 stored the old `first_alloc`, which was `None`), so a second
`register_gcbox` on it passes the check and silently links the record to
itself, corrupting the registry into a cycle. -/
theorem register_twice_no_panic_bug :
    register_gcbox oneBoxState 0 = some oneBoxSelfLinked ∧
    (alGet oneBoxSelfLinked.heap 0).map (fun b => b.header.next_allocation)
      = some (some 0) ∧
    oneBoxSelfLinked.first_alloc = some 0 := by
  decide

/-- C4 state: `oneBoxState` (a single registered, rooted record). -/
theorem mark_of_oneBox :
    (chainOf 2 oneBoxState oneBoxState.first_alloc).bind
      (fun order => markPhase 1 (unmarkAll oneBoxState order) order) = some oneBoxMarked := by
  decide

/-- C4: `force_collect` is claimed to run one full unmark/mark/sweep cycle
and return for every registry state, the sweep terminating whether or not
records are left marked.  With a single rooted record, the mark phase leaves
the record marked, and the sweep loop then spins on it forever (the inner
loop of lib.rs lines 125-138 never advances past a marked record, and the
outer `Some` arm at line 140 is unreachable): `mark_sweep` exhausts any
amount of sweep fuel. -/
theorem force_collect_sweep_diverges_bug :
    (∀ fuel, sweepF fuel oneBoxMarked = none) ∧
    ∀ fuelSweep, mark_sweep 2 1 fuelSweep oneBoxState = none := by
  have hspin := sweepF_spin oneBoxMarked 0 ⟨⟨true, 1, none⟩, []⟩ rfl (by decide) rfl
  refine ⟨hspin, fun fuelSweep => ?_⟩
  have h1 : chainOf 2 oneBoxState oneBoxState.first_alloc = some [0] := by decide
  have h2 : markPhase 1 (unmarkAll oneBoxState [0]) [0] = some oneBoxMarked := by decide
  simp [mark_sweep, h1, h2, hspin]

/-- A record whose root count sits at `u32::MAX`, with one rooted handle. -/
def maxedState : GcState :=
  ⟨[(0, ⟨⟨false, u32Max, none⟩, []⟩)], [(0, ⟨true, 0⟩)], some 0⟩

/-- C8: when a record's `root_count` equals `u32::MAX`, incrementing it —
through `Clone` or `inc_root_count`, both of which reach
`change_root_count::<PosOne>` — hits `checked_add(1).unwrap()` (lib.rs line
288) and panics instead of wrapping; and no successful `checked_add` ever
produces 0. -/
theorem inc_at_max_root_count_panics (s : GcState) (hid newId : HId) (h : Gc) (b : GcBox)
    (hh : alGet s.handles hid = some h) (hb : alGet s.heap h.gcbox = some b)
    (hmax : b.header.root_count = u32Max) (hfresh : alGet s.handles newId = none) :
    Gc.clone s hid newId = none ∧ Gc.inc_root_count s hid = none ∧
    ∀ n, checkedAdd1 n ≠ some 0 := by
  have hcrc : change_root_count PosOne.get s h.gcbox = none := by
    simp [change_root_count, hb, PosOne.get, checkedAdd1, hmax]
  refine ⟨?_, ?_, ?_⟩
  · simp [Gc.clone, hh, hfresh, hcrc]
  · simp [Gc.inc_root_count, hh, hcrc]
  · intro n
    unfold checkedAdd1
    split
    · simp
    · simp

/-- Witness for C8 at a concrete maxed-out record. -/
theorem inc_at_max_root_count_panics_witness :
    Gc.clone maxedState 0 1 = none ∧ Gc.inc_root_count maxedState 0 = none ∧
    ∀ n, checkedAdd1 n ≠ some 0 :=
  inc_at_max_root_count_panics maxedState 0 1 ⟨true, 0⟩ ⟨⟨false, u32Max, none⟩, []⟩
    (by decide) (by decide) rfl (by decide)

/-- Every record's root count in `s` is still present, no smaller, in `s2`. -/
def RootLE (s s2 : GcState) : Prop :=
  ∀ a b, alGet s.heap a = some b →
    ∃ b2, alGet s2.heap a = some b2 ∧ b.header.root_count ≤ b2.header.root_count

theorem rootLE_refl (s : GcState) : RootLE s s := fun _ b hb => ⟨b, hb, le_refl _⟩

theorem rootLE_trans {s t u : GcState} (h1 : RootLE s t) (h2 : RootLE t u) :
    RootLE s u := by
  intro a b hb
  obtain ⟨b1, hb1, hle1⟩ := h1 a b hb
  obtain ⟨b2, hb2, hle2⟩ := h2 a b1 hb1
  exact ⟨b2, hb2, le_trans hle1 hle2⟩

theorem setRootCount_rootLE {s : GcState} {a : Addr} {b : GcBox} {rc : Nat}
    (hb : alGet s.heap a = some b) (hle : b.header.root_count ≤ rc) :
    RootLE s (setRootCount s a rc) := by
  intro a2 b2 hb2
  unfold setRootCount
  rw [hb]
  by_cases ha : a2 = a
  · subst ha
    have hbb : b = b2 := Option.some.inj (hb.symm.trans hb2)
    refine ⟨_, alGet_alSet_self _ _ _ _ hb, ?_⟩
    simpa using hbb ▸ hle
  · exact ⟨b2, by simpa [alGet_alSet_ne _ _ _ _ ha] using hb2, le_refl _⟩

/-- The increment arm of `change_root_count` (the arm both marker types
select) never lowers any root count. -/
theorem change_root_count_one_rootLE {s s2 : GcState} {a : Addr}
    (h : change_root_count 1 s a = some s2) : RootLE s s2 := by
  unfold change_root_count at h
  cases hb : alGet s.heap a with
  | none => rw [hb] at h; simp at h
  | some b =>
    rw [hb] at h
    dsimp only [] at h
    rw [if_neg (by decide : ¬((1 : Int) = -1)), if_pos rfl] at h
    cases hc : checkedAdd1 b.header.root_count with
    | none => rw [hc] at h; simp at h
    | some rc2 =>
      rw [hc] at h
      simp only [Option.some.injEq] at h
      subst h
      unfold checkedAdd1 at hc
      split at hc
      · have hrc : rc2 = b.header.root_count + 1 := (Option.some.inj hc).symm
        exact setRootCount_rootLE hb (by omega)
      · simp at hc

theorem inc_root_count_rootLE {s s2 : GcState} {hid : HId}
    (h : Gc.inc_root_count s hid = some s2) : RootLE s s2 := by
  unfold Gc.inc_root_count at h
  cases hh : alGet s.handles hid with
  | none => rw [hh] at h; simp at h
  | some hd =>
    rw [hh] at h
    dsimp only [] at h
    rw [show PosOne.get = 1 from rfl] at h
    exact change_root_count_one_rootLE h

theorem dec_root_count_rootLE {s s2 : GcState} {hid : HId}
    (h : Gc.dec_root_count s hid = some s2) : RootLE s s2 := by
  unfold Gc.dec_root_count at h
  cases hh : alGet s.handles hid with
  | none => rw [hh] at h; simp at h
  | some hd =>
    rw [hh] at h
    dsimp only [] at h
    rw [show NegOne.get = 1 from rfl] at h
    exact change_root_count_one_rootLE h

theorem setIsRoot_heap (s : GcState) (hid : HId) (b : Bool) :
    (setIsRoot s hid b).heap = s.heap := by
  unfold setIsRoot
  cases alGet s.handles hid <;> rfl

theorem set_not_root_rootLE {s s2 : GcState} {hid : HId}
    (h : Gc.set_not_root s hid = some s2) : RootLE s s2 := by
  unfold Gc.set_not_root at h
  cases hh : alGet s.handles hid with
  | none => rw [hh] at h; simp at h
  | some hd =>
    rw [hh] at h
    dsimp only [] at h
    have step : ∀ t : GcState, RootLE s t → s2 = setIsRoot t hid false → RootLE s s2 := by
      intro t hle heq
      intro a b hb
      obtain ⟨b2, hb2, hle2⟩ := hle a b hb
      refine ⟨b2, ?_, hle2⟩
      rw [heq, setIsRoot_heap]
      exact hb2
    by_cases hr : hd.is_root
    · rw [if_pos hr] at h
      cases hdec : Gc.dec_root_count s hid with
      | none => rw [hdec] at h; simp at h
      | some t =>
        rw [hdec] at h
        simp only [Option.map_some', Option.some.injEq] at h
        exact step t (dec_root_count_rootLE hdec) h.symm
    · rw [if_neg hr] at h
      simp only [Option.map_some', Option.some.injEq] at h
      exact step s (rootLE_refl s) h.symm

theorem clone_rootLE {s s2 : GcState} {hid newId : HId}
    (h : Gc.clone s hid newId = some s2) : RootLE s s2 := by
  unfold Gc.clone at h
  cases hh : alGet s.handles hid with
  | none => rw [hh] at h; simp at h
  | some hd =>
    rw [hh] at h
    dsimp only [] at h
    cases hfr : (alGet s.handles newId).isSome with
    | true => rw [hfr] at h; simp at h
    | false =>
      rw [hfr] at h
      simp only [Bool.false_eq_true, if_false] at h
      cases hc : change_root_count PosOne.get s hd.gcbox with
      | none => rw [hc] at h; simp at h
      | some t =>
        rw [hc] at h
        simp only [Option.map_some', Option.some.injEq] at h
        rw [show PosOne.get = 1 from rfl] at hc
        intro a b hb
        obtain ⟨b2, hb2, hle⟩ := change_root_count_one_rootLE hc a b hb
        exact ⟨b2, by rw [← h]; exact hb2, hle⟩

theorem drop_rootLE {s s2 : GcState} {hid : HId}
    (h : Gc.drop s hid = some s2) : RootLE s s2 := by
  unfold Gc.drop at h
  cases hh : alGet s.handles hid with
  | none => rw [hh] at h; simp at h
  | some hd =>
    rw [hh] at h
    dsimp only [] at h
    have step : ∀ t : GcState, RootLE s t →
        s2 = { t with handles := alDel t.handles hid } → RootLE s s2 := by
      intro t hle heq
      intro a b hb
      obtain ⟨b2, hb2, hle2⟩ := hle a b hb
      exact ⟨b2, by rw [heq]; exact hb2, hle2⟩
    by_cases hr : hd.is_root
    · rw [if_pos hr] at h
      cases hdec : Gc.dec_root_count s hid with
      | none => rw [hdec] at h; simp at h
      | some t =>
        rw [hdec] at h
        simp only [Option.map_some', Option.some.injEq] at h
        exact step t (dec_root_count_rootLE hdec) h.symm
    · rw [if_neg hr] at h
      simp only [Option.map_some', Option.some.injEq] at h
      exact step s (rootLE_refl s) h.symm

theorem gcable_set_not_root_rootLE {s s2 : GcState} {fids : List HId}
    (h : GcAble.set_not_root s fids = some s2) : RootLE s s2 :=
  foldlM_rel rootLE_refl (fun h1 h2 => rootLE_trans h1 h2) Gc.set_not_root
    (fun _ _ _ hstep => set_not_root_rootLE hstep) fids s s2 h

theorem from_box_rootLE {s s2 : GcState} {fids : List HId} {na : Addr} {nh : HId}
    (h : Gc.from_box s fids na nh = some s2) : RootLE s s2 := by
  unfold Gc.from_box at h
  cases hfa : alGet s.heap na with
  | some v => rw [hfa] at h; simp at h
  | none =>
    rw [hfa] at h
    cases hfh : alGet s.handles nh with
    | some v => rw [hfh] at h; simp at h
    | none =>
      rw [hfh] at h
      simp only [Option.isSome_none, Bool.false_eq_true, if_false] at h
      cases hsn : GcAble.set_not_root s fids with
      | none => rw [hsn] at h; simp at h
      | some s1 =>
        rw [hsn] at h
        simp only [Option.some_bind] at h
        have hreg : alGet ((na, (⟨⟨false, 1, none⟩, fids⟩ : GcBox)) :: s1.heap) na
            = some ⟨⟨false, 1, none⟩, fids⟩ := by simp [alGet]
        rw [register_gcbox] at h
        simp only [hreg] at h
        simp only [Option.isSome_none, Bool.false_eq_true, if_false,
          Option.map_some', Option.some.injEq] at h
        intro a b hb
        have hane : a ≠ na := by
          intro heq
          rw [heq, hfa] at hb
          exact Option.noConfusion hb
        obtain ⟨b1, hb1, hle⟩ := gcable_set_not_root_rootLE hsn a b hb
        refine ⟨b1, ?_, hle⟩
        rw [← h]
        show alGet (alSet ((na, (⟨⟨false, 1, none⟩, fids⟩ : GcBox)) :: s1.heap) na _) a = some b1
        rw [alGet_alSet_ne _ _ _ _ hane, alGet_cons_ne _ _ _ _ hane]
        exact hb1

/-- The public operations of the library, as a single step type. -/
inductive GcOp where
  | construct (fids : List HId) (newAddr : Addr) (newHId : HId)
  | cloneH (hid newId : HId)
  | dropH (hid : HId)
  | setNotRoot (hid : HId)
  | incRoot (hid : HId)
  | decRoot (hid : HId)

/-- Dispatch of `GcOp` onto the modelled library operations. -/
def applyOp : GcOp → GcState → Option GcState
  | .construct fids a h2, s => Gc.new s fids a h2
  | .cloneH hid n, s => Gc.clone s hid n
  | .dropH hid, s => Gc.drop s hid
  | .setNotRoot hid, s => Gc.set_not_root s hid
  | .incRoot hid, s => Gc.inc_root_count s hid
  | .decRoot hid, s => Gc.dec_root_count s hid

/-- C10: no public operation ever decreases any record's `root_count` —
construct, clone, drop, set_not_root, inc_root_count and dec_root_count all
leave every pre-existing record present with a root count at least as large,
because both `IncOrDec` marker types return `+1` and `change_root_count`
therefore always takes its `checked_add` arm. -/
theorem ops_never_decrease_root_count (op : GcOp) (s s2 : GcState)
    (happ : applyOp op s = some s2) (a : Addr) (b : GcBox)
    (hb : alGet s.heap a = some b) :
    ∃ b2, alGet s2.heap a = some b2 ∧ b.header.root_count ≤ b2.header.root_count := by
  cases op with
  | construct fids na nh => exact from_box_rootLE happ a b hb
  | cloneH hid n => exact clone_rootLE happ a b hb
  | dropH hid => exact drop_rootLE happ a b hb
  | setNotRoot hid => exact set_not_root_rootLE happ a b hb
  | incRoot hid => exact inc_root_count_rootLE happ a b hb
  | decRoot hid => exact dec_root_count_rootLE happ a b hb

/-- Witness for C10: dropping the rooted handle of `oneBoxState` keeps the
record present with root count 1 ≤ 2. -/
theorem ops_never_decrease_root_count_witness :
    ∃ b2, alGet oneBoxDropped.heap 0 = some b2 ∧ 1 ≤ b2.header.root_count :=
  ops_never_decrease_root_count (.dropH 0) oneBoxState oneBoxDropped (by decide) 0
    ⟨⟨false, 1, none⟩, []⟩ (by decide)

/-- Frame facts preserved by the demotion pass: the registry head is
untouched, and no new heap address or handle identifier springs into
existence. -/
def FramePres (s s2 : GcState) : Prop :=
  s2.first_alloc = s.first_alloc ∧
  (∀ a, alGet s.heap a = none → alGet s2.heap a = none) ∧
  ∀ i, alGet s.handles i = none → alGet s2.handles i = none

theorem framePres_refl (s : GcState) : FramePres s s :=
  ⟨Eq.refl _, fun _ h => h, fun _ h => h⟩

theorem framePres_trans {s t u : GcState} (h1 : FramePres s t) (h2 : FramePres t u) :
    FramePres s u :=
  ⟨h2.1.trans h1.1, fun a ha => h2.2.1 a (h1.2.1 a ha), fun i hi => h2.2.2 i (h1.2.2 i hi)⟩

theorem setRootCount_framePres (s : GcState) (a : Addr) (rc : Nat) :
    FramePres s (setRootCount s a rc) := by
  unfold setRootCount
  cases hb : alGet s.heap a with
  | none => exact framePres_refl s
  | some b =>
    exact ⟨rfl, fun a2 h => alGet_alSet_of_none _ _ _ _ h, fun _ h => h⟩

theorem setIsRoot_framePres (s : GcState) (hid : HId) (b : Bool) :
    FramePres s (setIsRoot s hid b) := by
  unfold setIsRoot
  cases hh : alGet s.handles hid with
  | none => exact framePres_refl s
  | some hd =>
    exact ⟨rfl, fun _ h => h, fun i h => alGet_alSet_of_none _ _ _ _ h⟩

theorem change_root_count_framePres {delta : Int} {s s2 : GcState} {a : Addr}
    (h : change_root_count delta s a = some s2) : FramePres s s2 := by
  unfold change_root_count at h
  cases hb : alGet s.heap a with
  | none => rw [hb] at h; simp at h
  | some b =>
    rw [hb] at h
    dsimp only [] at h
    by_cases hd1 : delta = -1
    · rw [if_pos hd1] at h
      by_cases hz : b.header.root_count = 0
      · rw [if_pos hz] at h; simp at h
      · rw [if_neg hz] at h
        rw [← Option.some.inj h]
        exact setRootCount_framePres s a _
    · rw [if_neg hd1] at h
      by_cases hd2 : delta = 1
      · rw [if_pos hd2] at h
        cases hc : checkedAdd1 b.header.root_count with
        | none => rw [hc] at h; simp at h
        | some rc2 =>
          rw [hc] at h
          rw [← Option.some.inj h]
          exact setRootCount_framePres s a rc2
      · rw [if_neg hd2] at h; simp at h

theorem gc_set_not_root_framePres {s s2 : GcState} {hid : HId}
    (h : Gc.set_not_root s hid = some s2) : FramePres s s2 := by
  unfold Gc.set_not_root at h
  cases hh : alGet s.handles hid with
  | none => rw [hh] at h; simp at h
  | some hd =>
    rw [hh] at h
    dsimp only [] at h
    by_cases hr : hd.is_root
    · rw [if_pos hr] at h
      cases hdec : Gc.dec_root_count s hid with
      | none => rw [hdec] at h; simp at h
      | some t =>
        rw [hdec] at h
        simp only [Option.map_some', Option.some.injEq] at h
        have ht : FramePres s t := by
          unfold Gc.dec_root_count at hdec
          rw [hh] at hdec
          dsimp only [] at hdec
          exact change_root_count_framePres hdec
        rw [← h]
        exact framePres_trans ht (setIsRoot_framePres t hid false)
    · rw [if_neg hr] at h
      simp only [Option.map_some', Option.some.injEq] at h
      rw [← h]
      exact setIsRoot_framePres s hid false

theorem gcable_set_not_root_framePres {s s2 : GcState} {fids : List HId}
    (h : GcAble.set_not_root s fids = some s2) : FramePres s s2 :=
  foldlM_rel framePres_refl (fun h1 h2 => framePres_trans h1 h2) Gc.set_not_root
    (fun _ _ _ hstep => gc_set_not_root_framePres hstep) fids s s2 h

/-- C6: `Gc::new` / `Gc::from_box` on value `v` (whose embedded handles are
`fids`) first calls `set_not_root()` on `v`, allocates a record with
`root_count = 1`, registers it with the registry (linking it in at the head),
and returns a handle with `is_root = true`.  The resulting state is the
`set_not_root` state plus exactly the new record and the new rooted handle. -/
theorem construct_behaviour (s s1 : GcState) (fids : List HId) (newAddr : Addr)
    (newHId : HId) (hA : alGet s.heap newAddr = none) (hH : alGet s.handles newHId = none)
    (hsn : GcAble.set_not_root s fids = some s1) :
    ∃ s2, Gc.from_box s fids newAddr newHId = some s2 ∧
      alGet s2.heap newAddr = some ⟨⟨false, 1, s.first_alloc⟩, fids⟩ ∧
      s2.first_alloc = some newAddr ∧
      alGet s2.handles newHId = some ⟨true, newAddr⟩ ∧
      (∀ a, a ≠ newAddr → alGet s2.heap a = alGet s1.heap a) ∧
      ∀ hid, hid ≠ newHId → alGet s2.handles hid = alGet s1.handles hid := by
  obtain ⟨hfirst, hheapN, hhandN⟩ := gcable_set_not_root_framePres hsn
  unfold Gc.from_box
  rw [hA, hH, hsn]
  simp only [Option.isSome_none, Bool.false_eq_true, if_false, Option.some_bind]
  rw [register_gcbox]
  have hget : alGet ((newAddr, (⟨⟨false, 1, none⟩, fids⟩ : GcBox)) :: s1.heap) newAddr
      = some ⟨⟨false, 1, none⟩, fids⟩ := by simp [alGet]
  dsimp only []
  rw [hget]
  dsimp only []
  simp only [Option.isSome_none, Bool.false_eq_true, if_false, Option.map_some']
  have hset : alSet ((newAddr, (⟨⟨false, 1, none⟩, fids⟩ : GcBox)) :: s1.heap) newAddr
      (⟨⟨false, 1, s1.first_alloc⟩, fids⟩ : GcBox)
      = (newAddr, (⟨⟨false, 1, s1.first_alloc⟩, fids⟩ : GcBox)) :: s1.heap := by
    simp [alSet]
  refine ⟨_, rfl, ?_, ?_, ?_, ?_, ?_⟩
  · dsimp only []
    rw [hset, hfirst]
    simp [alGet]
  · rfl
  · simp [alGet]
  · intro a ha
    dsimp only []
    rw [hset]
    exact alGet_cons_ne _ _ _ _ ha
  · intro hid hhid
    dsimp only []
    exact alGet_cons_ne _ _ _ _ hhid

/-- Witness for C6: constructing a node that embeds the rooted handle of
`oneBoxState`. -/
theorem construct_behaviour_witness :
    ∃ s2, Gc.from_box oneBoxState [0] 1 1 = some s2 ∧
      alGet s2.heap 1 = some ⟨⟨false, 1, some 0⟩, [0]⟩ ∧
      s2.first_alloc = some 1 ∧
      alGet s2.handles 1 = some ⟨true, 1⟩ ∧
      (∀ a, a ≠ 1 → alGet s2.heap a = alGet oneBoxDemoted.heap a) ∧
      ∀ hid, hid ≠ 1 → alGet s2.handles hid = alGet oneBoxDemoted.handles hid :=
  construct_behaviour oneBoxState oneBoxDemoted [0] 1 1 (by decide) (by decide) (by decide)

/-- Marking leaves a box's payload, root count and registry link unchanged
and can only switch the mark bit on. -/
def BoxLE (b b2 : GcBox) : Prop :=
  b2.val = b.val ∧ b2.header.root_count = b.header.root_count ∧
  b2.header.next_allocation = b.header.next_allocation ∧
  (b.header.marked = true → b2.header.marked = true)

theorem boxLE_refl (b : GcBox) : BoxLE b b := ⟨rfl, rfl, rfl, fun h => h⟩

theorem boxLE_trans {b1 b2 b3 : GcBox} (h1 : BoxLE b1 b2) (h2 : BoxLE b2 b3) :
    BoxLE b1 b3 :=
  ⟨h2.1.trans h1.1, h2.2.1.trans h1.2.1, h2.2.2.1.trans h1.2.2.1,
   fun h => h2.2.2.2 (h1.2.2.2 h)⟩

/-- Pointwise `BoxLE` over two heaps with identical address structure. -/
def HeapLE : List (Addr × GcBox) → List (Addr × GcBox) → Prop :=
  List.Forall₂ fun p q => p.1 = q.1 ∧ BoxLE p.2 q.2

theorem heapLE_refl (l : List (Addr × GcBox)) : HeapLE l l := by
  induction l with
  | nil => exact List.Forall₂.nil
  | cons p rest ih => exact List.Forall₂.cons ⟨rfl, boxLE_refl p.2⟩ ih

theorem heapLE_trans {l1 l2 l3 : List (Addr × GcBox)}
    (h1 : HeapLE l1 l2) (h2 : HeapLE l2 l3) : HeapLE l1 l3 := by
  induction h1 generalizing l3 with
  | nil => cases h2; exact List.Forall₂.nil
  | cons hpq hrest ih =>
    cases h2 with
    | cons hqr hrest2 =>
      exact List.Forall₂.cons ⟨hpq.1.trans hqr.1, boxLE_trans hpq.2 hqr.2⟩ (ih hrest2)

/-- A marking step: heap boxes only gain marks, handles and the registry
head are untouched. -/
def MarkLE (s s2 : GcState) : Prop :=
  HeapLE s.heap s2.heap ∧ s2.handles = s.handles ∧ s2.first_alloc = s.first_alloc

theorem markLE_refl (s : GcState) : MarkLE s s := ⟨heapLE_refl s.heap, rfl, rfl⟩

theorem markLE_trans {s t u : GcState} (h1 : MarkLE s t) (h2 : MarkLE t u) :
    MarkLE s u :=
  ⟨heapLE_trans h1.1 h2.1, h2.2.1.trans h1.2.1, h2.2.2.trans h1.2.2⟩

theorem heapLE_alGet_some {l l2 : List (Addr × GcBox)} (h : HeapLE l l2)
    (a : Addr) (b : GcBox) (hb : alGet l a = some b) :
    ∃ b2, alGet l2 a = some b2 ∧ BoxLE b b2 := by
  induction h with
  | nil => simp [alGet] at hb
  | cons hpq hrest ih =>
    rename_i p q l1 l2'
    obtain ⟨hk, hbox⟩ := hpq
    by_cases hka : p.1 = a
    · obtain ⟨pk, pv⟩ := p
      obtain ⟨qk, qv⟩ := q
      simp only at hk hbox
      subst hk
      simp [alGet, hka] at hb ⊢
      subst hka
      simp [alGet] at hb ⊢
      exact hb ▸ hbox
    · obtain ⟨pk, pv⟩ := p
      obtain ⟨qk, qv⟩ := q
      simp only at hk hbox
      subst hk
      simp [alGet, hka] at hb ⊢
      exact ih hb

theorem heapLE_alGet_some_rev {l l2 : List (Addr × GcBox)} (h : HeapLE l l2)
    (a : Addr) (b2 : GcBox) (hb2 : alGet l2 a = some b2) :
    ∃ b, alGet l a = some b ∧ BoxLE b b2 := by
  induction h with
  | nil => simp [alGet] at hb2
  | cons hpq hrest ih =>
    rename_i p q l1 l2'
    obtain ⟨hk, hbox⟩ := hpq
    obtain ⟨pk, pv⟩ := p
    obtain ⟨qk, qv⟩ := q
    simp only at hk hbox
    subst hk
    by_cases hka : pk = a
    · subst hka
      simp [alGet] at hb2 ⊢
      exact hb2 ▸ hbox
    · simp [alGet, hka] at hb2 ⊢
      exact ih hb2

/-- Number of registered boxes whose mark bit is clear. -/
def unmarkedCount (l : List (Addr × GcBox)) : Nat :=
  (l.filter fun p => !p.2.header.marked).length

theorem unmarkedCount_le_of_heapLE {l l2 : List (Addr × GcBox)} (h : HeapLE l l2) :
    unmarkedCount l2 ≤ unmarkedCount l := by
  induction h with
  | nil => exact Nat.le_refl 0
  | cons hpq hrest ih =>
    rename_i p q l1 l2'
    unfold unmarkedCount at ih ⊢
    by_cases hm : p.2.header.marked = true
    · have hm2 : q.2.header.marked = true := hpq.2.2.2.2 hm
      simp [List.filter, hm, hm2]
      exact ih
    · simp only [Bool.not_eq_true] at hm
      by_cases hm2 : q.2.header.marked = true
      · simp [List.filter, hm, hm2]
        omega
      · simp only [Bool.not_eq_true] at hm2
        simp [List.filter, hm, hm2]
        omega

theorem unmarkedCount_alSet_mark {l : List (Addr × GcBox)} {a : Addr} {b bm : GcBox}
    (hb : alGet l a = some b) (hm : b.header.marked = false)
    (hbm : bm.header.marked = true) :
    unmarkedCount (alSet l a bm) < unmarkedCount l := by
  induction l with
  | nil => simp [alGet] at hb
  | cons p rest ih =>
    obtain ⟨pk, pv⟩ := p
    by_cases hk : pk = a
    · subst hk
      simp [alGet] at hb
      subst hb
      simp [alSet, unmarkedCount, List.filter, hm, hbm]
    · simp [alGet, hk] at hb
      have := ih hb
      unfold unmarkedCount at this ⊢
      by_cases hpm : pv.header.marked = true
      · simpa [alSet, hk, List.filter, hpm] using this
      · simp only [Bool.not_eq_true] at hpm
        simp [alSet, hk, List.filter, hpm]
        omega

theorem unmarkedCount_setMarked_lt {s : GcState} {a : Addr} {b : GcBox}
    (hb : alGet s.heap a = some b) (hm : b.header.marked = false) :
    unmarkedCount (setMarked s a true).heap < unmarkedCount s.heap := by
  unfold setMarked
  rw [hb]
  exact unmarkedCount_alSet_mark hb hm rfl

theorem heapLE_alSet_mark {l : List (Addr × GcBox)} {a : Addr} {b : GcBox}
    (hb : alGet l a = some b) :
    HeapLE l (alSet l a { b with header := { b.header with marked := true } }) := by
  induction l with
  | nil => exact List.Forall₂.nil
  | cons p rest ih =>
    obtain ⟨pk, pv⟩ := p
    by_cases hk : pk = a
    · subst hk
      simp [alGet] at hb
      subst hb
      simp only [alSet, if_pos rfl]
      refine List.Forall₂.cons ⟨rfl, ?_⟩ (heapLE_refl rest)
      exact ⟨rfl, rfl, rfl, fun _ => rfl⟩
    · simp [alGet, hk] at hb
      simp only [alSet, if_neg hk]
      exact List.Forall₂.cons ⟨rfl, boxLE_refl pv⟩ (ih hb)

theorem setMarked_markLE {s : GcState} {a : Addr} {b : GcBox}
    (hb : alGet s.heap a = some b) : MarkLE s (setMarked s a true) := by
  unfold setMarked
  rw [hb]
  exact ⟨heapLE_alSet_mark hb, rfl, rfl⟩

theorem setMarked_handles (s : GcState) (a : Addr) (m : Bool) :
    (setMarked s a m).handles = s.handles := by
  unfold setMarked
  cases alGet s.heap a <;> rfl

theorem setMarked_get_self {s : GcState} {a : Addr} {b : GcBox}
    (hb : alGet s.heap a = some b) :
    alGet (setMarked s a true).heap a
      = some { b with header := { b.header with marked := true } } := by
  unfold setMarked
  rw [hb]
  exact alGet_alSet_self _ _ _ _ hb

theorem setMarked_get_ne {s : GcState} {a a2 : Addr} (h : a2 ≠ a) (m : Bool) :
    alGet (setMarked s a m).heap a2 = alGet s.heap a2 := by
  unfold setMarked
  cases hb : alGet s.heap a with
  | none => rfl
  | some b => exact alGet_alSet_ne _ _ _ _ h

/-- Every handle lookup the mark traversal can reach from this handle's
first step succeeds. -/
def handleResolves (s : GcState) (hid : HId) : Bool :=
  match alGet s.handles hid with
  | none => false
  | some h => (alGet s.heap h.gcbox).isSome

/-- Well-formed collector state: every handle embedded in any registered
value resolves to a live handle whose target is a live box (in the source
this is automatic: a `Gc<T>` always points at a leaked, live `GcBox<T>`). -/
def WfS (s : GcState) : Prop :=
  ∀ p ∈ s.heap, ∀ hid ∈ p.2.val, handleResolves s hid = true

theorem handleResolves_elim {s : GcState} {hid : HId}
    (h : handleResolves s hid = true) :
    ∃ hd, alGet s.handles hid = some hd ∧ ∃ b, alGet s.heap hd.gcbox = some b := by
  unfold handleResolves at h
  cases hh : alGet s.handles hid with
  | none => rw [hh] at h; simp at h
  | some hd =>
    rw [hh] at h
    dsimp only [] at h
    cases hb : alGet s.heap hd.gcbox with
    | none => rw [hb] at h; simp at h
    | some b => exact ⟨hd, rfl, b, hb⟩

theorem mem_of_heapLE {l l2 : List (Addr × GcBox)} (h : HeapLE l l2)
    (p2 : Addr × GcBox) (hp2 : p2 ∈ l2) :
    ∃ p1, p1 ∈ l ∧ p1.1 = p2.1 ∧ BoxLE p1.2 p2.2 := by
  induction h with
  | nil => simp at hp2
  | cons hpq hrest ih =>
    rename_i p q l1 l2'
    rcases List.mem_cons.mp hp2 with heq | hp2'
    · subst heq
      exact ⟨p, List.mem_cons_self p l1, hpq.1, hpq.2⟩
    · obtain ⟨p1, hmem, hk, hbox⟩ := ih hp2'
      exact ⟨p1, List.mem_cons_of_mem p hmem, hk, hbox⟩

theorem wfS_of_markLE {s s2 : GcState} (hwf : WfS s) (hle : MarkLE s s2) : WfS s2 := by
  intro p2 hp2 hid hhid
  obtain ⟨p1, hmem, hk, hbox⟩ := mem_of_heapLE hle.1 p2 hp2
  have hhid1 : hid ∈ p1.2.val := by rw [hbox.1] at hhid; exact hhid
  have h1 := hwf p1 hmem hid hhid1
  obtain ⟨hd, hhd, b, hb⟩ := handleResolves_elim h1
  unfold handleResolves
  rw [hle.2.1, hhd]
  dsimp only []
  obtain ⟨b2, hb2, _⟩ := heapLE_alGet_some hle.1 _ _ hb
  rw [hb2]
  rfl

theorem mark_mono : ∀ (fuel : Nat) (s : GcState) (hid : HId) (s2 : GcState),
    Gc.mark fuel s hid = some s2 → MarkLE s s2 := by
  intro fuel
  induction fuel with
  | zero =>
    intro s hid s2 h
    simp [Gc.mark] at h
  | succ n ih =>
    intro s hid s2 h
    unfold Gc.mark at h
    cases hh : alGet s.handles hid with
    | none => rw [hh] at h; simp at h
    | some hd =>
      rw [hh] at h
      dsimp only [] at h
      cases hb : alGet s.heap hd.gcbox with
      | none => rw [hb] at h; simp at h
      | some b =>
        rw [hb] at h
        dsimp only [] at h
        by_cases hm : b.header.marked = true
        · rw [if_pos hm] at h
          rw [← Option.some.inj h]
          exact markLE_refl s
        · rw [if_neg hm] at h
          have h1 : MarkLE s (setMarked s hd.gcbox true) := setMarked_markLE hb
          have h2 := foldlM_rel markLE_refl (fun a b => markLE_trans a b)
            (fun st hid2 => Gc.mark n st hid2) (fun st x t hstep => ih st x t hstep)
            b.val (setMarked s hd.gcbox true) s2 h
          exact markLE_trans h1 h2

theorem mark_target_marked {fuel : Nat} {s s2 : GcState} {hid : HId} {hd : Gc}
    (h : Gc.mark fuel s hid = some s2) (hh : alGet s.handles hid = some hd) :
    ∃ b2, alGet s2.heap hd.gcbox = some b2 ∧ b2.header.marked = true := by
  cases fuel with
  | zero => simp [Gc.mark] at h
  | succ n =>
    unfold Gc.mark at h
    rw [hh] at h
    dsimp only [] at h
    cases hb : alGet s.heap hd.gcbox with
    | none => rw [hb] at h; simp at h
    | some b =>
      rw [hb] at h
      dsimp only [] at h
      by_cases hm : b.header.marked = true
      · rw [if_pos hm] at h
        rw [← Option.some.inj h]
        exact ⟨b, hb, hm⟩
      · rw [if_neg hm] at h
        have hle := foldlM_rel markLE_refl (fun a b => markLE_trans a b)
          (fun st hid2 => Gc.mark n st hid2) (fun st x t hstep => mark_mono n st x t hstep)
          b.val (setMarked s hd.gcbox true) s2 h
        have hget := setMarked_get_self hb
        obtain ⟨b2, hb2, hbox⟩ := heapLE_alGet_some hle.1 _ _ hget
        exact ⟨b2, hb2, hbox.2.2.2 rfl⟩

theorem fold_targets_marked {fuel : Nat} : ∀ (fids : List HId) (s s2 : GcState),
    List.foldlM (fun st hid2 => Gc.mark fuel st hid2) s fids = some s2 →
    ∀ hid ∈ fids, ∀ hd, alGet s.handles hid = some hd →
      ∃ b2, alGet s2.heap hd.gcbox = some b2 ∧ b2.header.marked = true := by
  intro fids
  induction fids with
  | nil =>
    intro s s2 h hid hmem
    simp at hmem
  | cons x xs ih =>
    intro s s2 h hid hmem hd hhd
    rw [List.foldlM_cons] at h
    cases hfx : Gc.mark fuel s x with
    | none => rw [hfx] at h; simp at h
    | some t =>
      rw [hfx] at h
      rw [show ∀ (g : GcState → Option GcState), some t >>= g = g t from fun g => rfl] at h
      rcases List.mem_cons.mp hmem with heq | hmem2
      · subst heq
        obtain ⟨b2, hb2, hm2⟩ := mark_target_marked hfx hhd
        have hle := foldlM_rel markLE_refl (fun a b => markLE_trans a b)
          (fun st y => Gc.mark fuel st y) (fun st y u hstep => mark_mono fuel st y u hstep)
          xs t s2 h
        obtain ⟨b3, hb3, hbox⟩ := heapLE_alGet_some hle.1 _ _ hb2
        exact ⟨b3, hb3, hbox.2.2.2 hm2⟩
      · have ht : alGet t.handles hid = some hd := by
          rw [(mark_mono fuel s x t hfx).2.1]
          exact hhd
        exact ih t s2 h hid hmem2 hd ht

theorem mark_fuel : ∀ (fuel : Nat) (s : GcState) (hid : HId),
    WfS s → handleResolves s hid = true → unmarkedCount s.heap < fuel →
    ∃ s2, Gc.mark fuel s hid = some s2 ∧ MarkLE s s2 := by
  intro fuel
  induction fuel with
  | zero =>
    intro s hid _ _ hlt
    exact absurd hlt (Nat.not_lt_zero _)
  | succ n ih =>
    intro s hid hwf hres hlt
    obtain ⟨hd, hh, b, hb⟩ := handleResolves_elim hres
    unfold Gc.mark
    rw [hh]
    dsimp only []
    rw [hb]
    dsimp only []
    by_cases hm : b.header.marked = true
    · rw [if_pos hm]
      exact ⟨s, rfl, markLE_refl s⟩
    · rw [if_neg hm]
      have hm0 : b.header.marked = false := by
        cases hmk : b.header.marked
        · rfl
        · exact absurd hmk hm
      have hltn : unmarkedCount (setMarked s hd.gcbox true).heap < n :=
        lt_of_lt_of_le (unmarkedCount_setMarked_lt hb hm0) (Nat.lt_succ_iff.mp hlt)
      have hle1 : MarkLE s (setMarked s hd.gcbox true) := setMarked_markLE hb
      have hwf1 : WfS (setMarked s hd.gcbox true) := wfS_of_markLE hwf hle1
      have hres1 : ∀ hid2 ∈ b.val,
          handleResolves (setMarked s hd.gcbox true) hid2 = true := by
        intro hid2 hmem
        have hmemheap :
            (hd.gcbox, { b with header := { b.header with marked := true } })
              ∈ (setMarked s hd.gcbox true).heap :=
          alGet_mem _ _ _ (setMarked_get_self hb)
        exact hwf1 _ hmemheap hid2 hmem
      have hfold : ∀ (fids : List HId) (t : GcState), WfS t →
          unmarkedCount t.heap < n →
          (∀ hid2 ∈ fids, handleResolves t hid2 = true) →
          ∃ t2, List.foldlM (fun st hid2 => Gc.mark n st hid2) t fids = some t2 ∧
            MarkLE t t2 := by
        intro fids
        induction fids with
        | nil =>
          intro t _ _ _
          exact ⟨t, by simp [List.foldlM], markLE_refl t⟩
        | cons x xs ihf =>
          intro t hwft hltt hrest
          obtain ⟨t1, ht1, hlet1⟩ := ih t x hwft (hrest x (List.mem_cons_self x xs)) hltt
          have hwft1 := wfS_of_markLE hwft hlet1
          have hltt1 : unmarkedCount t1.heap < n :=
            lt_of_le_of_lt (unmarkedCount_le_of_heapLE hlet1.1) hltt
          have hrest1 : ∀ hid2 ∈ xs, handleResolves t1 hid2 = true := by
            intro hid2 hmem
            obtain ⟨hd2, hhd2, b2, hb2⟩ :=
              handleResolves_elim (hrest hid2 (List.mem_cons_of_mem x hmem))
            unfold handleResolves
            rw [hlet1.2.1, hhd2]
            dsimp only []
            obtain ⟨b3, hb3, _⟩ := heapLE_alGet_some hlet1.1 _ _ hb2
            rw [hb3]
            rfl
          obtain ⟨t2, ht2, hlet2⟩ := ihf t1 hwft1 hltt1 hrest1
          refine ⟨t2, ?_, markLE_trans hlet1 hlet2⟩
          rw [List.foldlM_cons, ht1]
          rw [show ∀ (g : GcState → Option GcState), some t1 >>= g = g t1 from fun g => rfl]
          exact ht2
      obtain ⟨s2, hs2, hles2⟩ := hfold b.val (setMarked s hd.gcbox true) hwf1 hltn hres1
      exact ⟨s2, hs2, markLE_trans hle1 hles2⟩

theorem markRootStep_mono {fuel : Nat} {s s2 : GcState} {a : Addr}
    (h : markRootStep fuel s a = some s2) : MarkLE s s2 := by
  unfold markRootStep at h
  cases hb : alGet s.heap a with
  | none => rw [hb] at h; simp at h
  | some b =>
    rw [hb] at h
    dsimp only [] at h
    by_cases hr : b.header.is_rooted = true
    · rw [if_pos hr] at h
      exact markLE_trans (setMarked_markLE hb)
        (foldlM_rel markLE_refl (fun h1 h2 => markLE_trans h1 h2)
          (fun st hid2 => Gc.mark fuel st hid2)
          (fun st y u hstep => mark_mono fuel st y u hstep) b.val _ s2 h)
    · rw [if_neg hr] at h
      rw [← Option.some.inj h]
      exact markLE_refl s

theorem mark_fold_fuel (fuel : Nat) : ∀ (fids : List HId) (t : GcState), WfS t →
    unmarkedCount t.heap < fuel →
    (∀ hid ∈ fids, handleResolves t hid = true) →
    ∃ t2, List.foldlM (fun st hid2 => Gc.mark fuel st hid2) t fids = some t2 ∧
      MarkLE t t2 := by
  intro fids
  induction fids with
  | nil =>
    intro t _ _ _
    exact ⟨t, by simp [List.foldlM], markLE_refl t⟩
  | cons x xs ihf =>
    intro t hwft hltt hrest
    obtain ⟨t1, ht1, hlet1⟩ :=
      mark_fuel fuel t x hwft (hrest x (List.mem_cons_self x xs)) hltt
    have hwft1 := wfS_of_markLE hwft hlet1
    have hltt1 : unmarkedCount t1.heap < fuel :=
      lt_of_le_of_lt (unmarkedCount_le_of_heapLE hlet1.1) hltt
    have hrest1 : ∀ hid2 ∈ xs, handleResolves t1 hid2 = true := by
      intro hid2 hmem
      obtain ⟨hd2, hhd2, b2, hb2⟩ :=
        handleResolves_elim (hrest hid2 (List.mem_cons_of_mem x hmem))
      unfold handleResolves
      rw [hlet1.2.1, hhd2]
      dsimp only []
      obtain ⟨b3, hb3, _⟩ := heapLE_alGet_some hlet1.1 _ _ hb2
      rw [hb3]
      rfl
    obtain ⟨t2, ht2, hlet2⟩ := ihf t1 hwft1 hltt1 hrest1
    refine ⟨t2, ?_, markLE_trans hlet1 hlet2⟩
    rw [List.foldlM_cons, ht1]
    rw [show ∀ (g : GcState → Option GcState), some t1 >>= g = g t1 from fun g => rfl]
    exact ht2

theorem markRootStep_fuel {fuel : Nat} {s : GcState} {a : Addr}
    (hwf : WfS s) (hdom : (alGet s.heap a).isSome = true)
    (hlt : unmarkedCount s.heap < fuel) :
    ∃ s2, markRootStep fuel s a = some s2 ∧ MarkLE s s2 := by
  cases hb : alGet s.heap a with
  | none => rw [hb] at hdom; simp at hdom
  | some b =>
    unfold markRootStep
    rw [hb]
    dsimp only []
    by_cases hr : b.header.is_rooted = true
    · rw [if_pos hr]
      have hle1 : MarkLE s (setMarked s a true) := setMarked_markLE hb
      have hwf1 := wfS_of_markLE hwf hle1
      have hlt1 : unmarkedCount (setMarked s a true).heap < fuel :=
        lt_of_le_of_lt (unmarkedCount_le_of_heapLE hle1.1) hlt
      have hres1 : ∀ hid ∈ b.val, handleResolves (setMarked s a true) hid = true := by
        intro hid hmem
        exact hwf1 _ (alGet_mem _ _ _ (setMarked_get_self hb)) hid hmem
      obtain ⟨s2, hs2, hles2⟩ := mark_fold_fuel fuel b.val (setMarked s a true) hwf1 hlt1 hres1
      exact ⟨s2, hs2, markLE_trans hle1 hles2⟩
    · rw [if_neg hr]
      exact ⟨s, rfl, markLE_refl s⟩

theorem markPhase_fuel (fuel : Nat) : ∀ (order : List Addr) (s : GcState), WfS s →
    (∀ a ∈ order, (alGet s.heap a).isSome = true) →
    unmarkedCount s.heap < fuel →
    ∃ s2, markPhase fuel s order = some s2 ∧ MarkLE s s2 := by
  intro order
  induction order with
  | nil =>
    intro s _ _ _
    exact ⟨s, by simp [markPhase, List.foldlM], markLE_refl s⟩
  | cons a rest ih =>
    intro s hwf hdom hlt
    obtain ⟨t, ht, hlet⟩ := markRootStep_fuel hwf (hdom a (List.mem_cons_self a rest)) hlt
    have hdom2 : ∀ a2 ∈ rest, (alGet t.heap a2).isSome = true := by
      intro a2 hmem
      cases hb : alGet s.heap a2 with
      | none =>
        have := hdom a2 (List.mem_cons_of_mem a hmem)
        rw [hb] at this
        simp at this
      | some b =>
        obtain ⟨b2, hb2, _⟩ := heapLE_alGet_some hlet.1 _ _ hb
        rw [hb2]
        rfl
    obtain ⟨s2, hs2, hles2⟩ := ih t (wfS_of_markLE hwf hlet) hdom2
      (lt_of_le_of_lt (unmarkedCount_le_of_heapLE hlet.1) hlt)
    refine ⟨s2, ?_, markLE_trans hlet hles2⟩
    unfold markPhase at hs2 ⊢
    rw [List.foldlM_cons, ht]
    rw [show ∀ (g : GcState → Option GcState), some t >>= g = g t from fun g => rfl]
    exact hs2

theorem markPhase_marks {fuel : Nat} : ∀ (order : List Addr) (s s2 : GcState),
    markPhase fuel s order = some s2 →
    ∀ a ∈ order, ∀ b, alGet s.heap a = some b → b.header.is_rooted = true →
    ∃ b2, alGet s2.heap a = some b2 ∧ b2.header.marked = true := by
  intro order
  induction order with
  | nil =>
    intro s s2 h a hmem
    simp at hmem
  | cons x xs ih =>
    intro s s2 h a hmem b hb hr
    unfold markPhase at h
    rw [List.foldlM_cons] at h
    cases hstep : markRootStep fuel s x with
    | none => rw [hstep] at h; simp at h
    | some t =>
      rw [hstep] at h
      rw [show ∀ (g : GcState → Option GcState), some t >>= g = g t from fun g => rfl] at h
      rcases List.mem_cons.mp hmem with heq | hmem2
      · subst heq
        have hmarked : ∃ bt, alGet t.heap a = some bt ∧ bt.header.marked = true := by
          unfold markRootStep at hstep
          rw [hb] at hstep
          dsimp only [] at hstep
          rw [if_pos hr] at hstep
          have hle := foldlM_rel markLE_refl (fun h1 h2 => markLE_trans h1 h2)
            (fun st hid2 => Gc.mark fuel st hid2)
            (fun st y u hs => mark_mono fuel st y u hs) b.val (setMarked s a true) t hstep
          obtain ⟨bt, hbt, hbox⟩ := heapLE_alGet_some hle.1 _ _ (setMarked_get_self hb)
          exact ⟨bt, hbt, hbox.2.2.2 rfl⟩
        obtain ⟨bt, hbt, hmt⟩ := hmarked
        have hle2 := foldlM_rel markLE_refl (fun h1 h2 => markLE_trans h1 h2)
          (markRootStep fuel) (fun st y u hs => markRootStep_mono hs) xs t s2 h
        obtain ⟨b2, hb2, hbox2⟩ := heapLE_alGet_some hle2.1 _ _ hbt
        exact ⟨b2, hb2, hbox2.2.2.2 hmt⟩
      · have hlet := markRootStep_mono hstep
        obtain ⟨bt, hbt, hbox⟩ := heapLE_alGet_some hlet.1 _ _ hb
        have hrt : bt.header.is_rooted = true := by
          unfold GcBoxHeader.is_rooted at hr ⊢
          rw [hbox.2.1]
          exact hr
        exact ih t s2 h a hmem2 bt hbt hrt

/-- Every handle in `fids` points (through the handle table) at a marked box. -/
def FieldsMarked (s : GcState) (fids : List HId) : Prop :=
  ∀ hid ∈ fids, ∀ hd, alGet s.handles hid = some hd →
    ∀ b, alGet s.heap hd.gcbox = some b → b.header.marked = true

/-- Any box marked in `s2` was either already marked in `s` or had the mark
recursion visit all of its outgoing handles (they are all marked in `s2`). -/
def NewOk (s s2 : GcState) : Prop :=
  ∀ a b2, alGet s2.heap a = some b2 → b2.header.marked = true →
    (∃ b, alGet s.heap a = some b ∧ b.header.marked = true) ∨ FieldsMarked s2 b2.val

theorem newOk_refl (s : GcState) : NewOk s s :=
  fun _ b2 hb2 hm2 => Or.inl ⟨b2, hb2, hm2⟩

theorem fieldsMarked_mono {s s2 : GcState} {fids : List HId}
    (h : FieldsMarked s fids) (hle : MarkLE s s2) : FieldsMarked s2 fids := by
  intro hid hmem hd hhd b2 hb2
  have hhd1 : alGet s.handles hid = some hd := by
    rw [← hle.2.1]
    exact hhd
  obtain ⟨b1, hb1, hbox⟩ := heapLE_alGet_some_rev hle.1 _ _ hb2
  exact hbox.2.2.2 (h hid hmem hd hhd1 b1 hb1)

theorem newOk_trans {s t u : GcState} (h1 : NewOk s t) (h2 : NewOk t u)
    (hle : MarkLE t u) : NewOk s u := by
  intro a b2 hb2 hm2
  rcases h2 a b2 hb2 hm2 with ⟨bt, hbt, hmt⟩ | hfm
  · rcases h1 a bt hbt hmt with hleft | hfm1
    · exact Or.inl hleft
    · right
      obtain ⟨b2', hb2', hbox⟩ := heapLE_alGet_some hle.1 _ _ hbt
      have hb2eq : b2' = b2 := Option.some.inj (hb2'.symm.trans hb2)
      have hval : b2.val = bt.val := by
        rw [← hb2eq]
        exact hbox.1
      rw [hval]
      exact fieldsMarked_mono hfm1 hle
  · exact Or.inr hfm

theorem mark_newOk : ∀ (fuel : Nat) (s : GcState) (hid : HId) (s2 : GcState),
    Gc.mark fuel s hid = some s2 → NewOk s s2 := by
  intro fuel
  induction fuel with
  | zero =>
    intro s hid s2 h
    simp [Gc.mark] at h
  | succ n ih =>
    intro s hid s2 h
    unfold Gc.mark at h
    cases hh : alGet s.handles hid with
    | none => rw [hh] at h; simp at h
    | some hd =>
      rw [hh] at h
      dsimp only [] at h
      cases hb : alGet s.heap hd.gcbox with
      | none => rw [hb] at h; simp at h
      | some b =>
        rw [hb] at h
        dsimp only [] at h
        by_cases hm : b.header.marked = true
        · rw [if_pos hm] at h
          rw [← Option.some.inj h]
          exact newOk_refl s
        · rw [if_neg hm] at h
          have hfoldok := foldlM_rel
            (P := fun t u => NewOk t u ∧ MarkLE t u)
            (fun t => ⟨newOk_refl t, markLE_refl t⟩)
            (fun hp hq => ⟨newOk_trans hp.1 hq.1 hq.2, markLE_trans hp.2 hq.2⟩)
            (fun st hid2 => Gc.mark n st hid2)
            (fun st y u hstep => ⟨ih st y u hstep, mark_mono n st y u hstep⟩)
            b.val (setMarked s hd.gcbox true) s2 h
          have htargets := fold_targets_marked b.val (setMarked s hd.gcbox true) s2 h
          intro a b2 hb2 hm2
          by_cases haA : a = hd.gcbox
          · subst haA
            right
            obtain ⟨b2', hb2', hbox⟩ :=
              heapLE_alGet_some hfoldok.2.1 _ _ (setMarked_get_self hb)
            have hb2eq : b2' = b2 := Option.some.inj (hb2'.symm.trans hb2)
            have hval : b2.val = b.val := by
              rw [← hb2eq]
              exact hbox.1
            rw [hval]
            intro hid2 hmem hd2 hhd2 bb hbb
            have hhd1 : alGet (setMarked s hd.gcbox true).handles hid2 = some hd2 := by
              rw [← hfoldok.2.2.1]
              exact hhd2
            obtain ⟨bt, hbt, hmt⟩ := htargets hid2 hmem hd2 hhd1
            have hbteq : bt = bb := Option.some.inj (hbt.symm.trans hbb)
            rw [← hbteq]
            exact hmt
          · rcases hfoldok.1 a b2 hb2 hm2 with ⟨bt, hbt, hmt⟩ | hfm
            · left
              rw [setMarked_get_ne haA true] at hbt
              exact ⟨bt, hbt, hmt⟩
            · exact Or.inr hfm

theorem markRootStep_newOk {fuel : Nat} {s s2 : GcState} {a : Addr}
    (h : markRootStep fuel s a = some s2) : NewOk s s2 := by
  unfold markRootStep at h
  cases hb : alGet s.heap a with
  | none => rw [hb] at h; simp at h
  | some b =>
    rw [hb] at h
    dsimp only [] at h
    by_cases hr : b.header.is_rooted = true
    · rw [if_pos hr] at h
      have hfoldok := foldlM_rel
        (P := fun t u => NewOk t u ∧ MarkLE t u)
        (fun t => ⟨newOk_refl t, markLE_refl t⟩)
        (fun hp hq => ⟨newOk_trans hp.1 hq.1 hq.2, markLE_trans hp.2 hq.2⟩)
        (fun st hid2 => Gc.mark fuel st hid2)
        (fun st y u hstep => ⟨mark_newOk fuel st y u hstep, mark_mono fuel st y u hstep⟩)
        b.val (setMarked s a true) s2 h
      have htargets := fold_targets_marked b.val (setMarked s a true) s2 h
      intro a2 b2 hb2 hm2
      by_cases haA : a2 = a
      · subst haA
        right
        obtain ⟨b2', hb2', hbox⟩ :=
          heapLE_alGet_some hfoldok.2.1 _ _ (setMarked_get_self hb)
        have hb2eq : b2' = b2 := Option.some.inj (hb2'.symm.trans hb2)
        have hval : b2.val = b.val := by
          rw [← hb2eq]
          exact hbox.1
        rw [hval]
        intro hid2 hmem hd2 hhd2 bb hbb
        have hhd1 : alGet (setMarked s a2 true).handles hid2 = some hd2 := by
          rw [← hfoldok.2.2.1]
          exact hhd2
        obtain ⟨bt, hbt, hmt⟩ := htargets hid2 hmem hd2 hhd1
        have hbteq : bt = bb := Option.some.inj (hbt.symm.trans hbb)
        rw [← hbteq]
        exact hmt
      · rcases hfoldok.1 a2 b2 hb2 hm2 with ⟨bt, hbt, hmt⟩ | hfm
        · left
          rw [setMarked_get_ne haA true] at hbt
          exact ⟨bt, hbt, hmt⟩
        · exact Or.inr hfm
    · rw [if_neg hr] at h
      rw [← Option.some.inj h]
      exact newOk_refl s

theorem markPhase_newOk {fuel : Nat} (order : List Addr) (s s2 : GcState)
    (h : markPhase fuel s order = some s2) : NewOk s s2 :=
  (foldlM_rel
    (P := fun t u => NewOk t u ∧ MarkLE t u)
    (fun t => ⟨newOk_refl t, markLE_refl t⟩)
    (fun hp hq => ⟨newOk_trans hp.1 hq.1 hq.2, markLE_trans hp.2 hq.2⟩)
    (markRootStep fuel)
    (fun _ _ _ hstep => ⟨markRootStep_newOk hstep, markRootStep_mono hstep⟩)
    order s s2 h).1

theorem mark_stops {t : GcState} {hid : HId} {hd : Gc} {b : GcBox} {n : Nat}
    (hh : alGet t.handles hid = some hd) (hb : alGet t.heap hd.gcbox = some b)
    (hm : b.header.marked = true) : Gc.mark (n + 1) t hid = some t := by
  unfold Gc.mark
  rw [hh]
  dsimp only []
  rw [hb]
  dsimp only []
  rw [if_pos hm]

/-- C5: the mark pass of `GcAlloc::mark_sweep`, run on an all-unmarked
registry (the state the unmark pass leaves behind): (i) it terminates — fuel
one greater than the number of unmarked records suffices, even on cyclic
reference graphs; (ii) every registered record with `root_count > 0` ends up
marked; (iii) recursion propagated through every outgoing handle field: every
marked record's outgoing handles point at marked records; (iv) `Gc::mark` on
a handle whose target is already marked returns at once without touching the
state. -/
theorem marking_phase_correct (s : GcState) (order : List Addr)
    (hwf : WfS s)
    (hdom : ∀ a ∈ order, (alGet s.heap a).isSome = true)
    (hunm : ∀ p ∈ s.heap, p.2.header.marked = false) :
    (∃ s2, markPhase (unmarkedCount s.heap + 1) s order = some s2 ∧
      (∀ a ∈ order, ∀ b, alGet s.heap a = some b → 0 < b.header.root_count →
        ∃ b2, alGet s2.heap a = some b2 ∧ b2.header.marked = true) ∧
      ∀ a b2, alGet s2.heap a = some b2 → b2.header.marked = true →
        FieldsMarked s2 b2.val) ∧
    ∀ (t : GcState) (hid : HId) (hd : Gc) (b : GcBox) (n : Nat),
      alGet t.handles hid = some hd → alGet t.heap hd.gcbox = some b →
      b.header.marked = true → Gc.mark (n + 1) t hid = some t := by
  constructor
  · obtain ⟨s2, hs2, _⟩ :=
      markPhase_fuel (unmarkedCount s.heap + 1) order s hwf hdom (Nat.lt_succ_self _)
    refine ⟨s2, hs2, ?_, ?_⟩
    · intro a hmem b hb hroot
      exact markPhase_marks order s s2 hs2 a hmem b hb
        (by unfold GcBoxHeader.is_rooted; exact decide_eq_true hroot)
    · intro a b2 hb2 hm2
      rcases markPhase_newOk order s s2 hs2 a b2 hb2 hm2 with ⟨b1, hb1, hm1⟩ | hfm
      · have hfalse := hunm _ (alGet_mem _ _ _ hb1)
        rw [hfalse] at hm1
        exact absurd hm1 (by simp)
      · exact hfm
  · intro t hid hd b n hh hb hm
    exact mark_stops hh hb hm

/-- A two-record reference cycle with one root: record 0 (rooted) points at
record 1 through handle 10, record 1 points back at record 0 through handle
11; both unmarked. -/
def cyclePairUnmarked : GcState :=
  ⟨[(0, ⟨⟨false, 1, none⟩, [10]⟩), (1, ⟨⟨false, 0, some 0⟩, [11]⟩)],
   [(10, ⟨false, 1⟩), (11, ⟨false, 0⟩)], some 1⟩

/-- Witness for C5: the mark pass on the concrete two-record cycle. -/
theorem marking_phase_correct_witness :
    ((∃ s2, markPhase (unmarkedCount cyclePairUnmarked.heap + 1) cyclePairUnmarked [0, 1]
        = some s2 ∧
      (∀ a ∈ [0, 1], ∀ b, alGet cyclePairUnmarked.heap a = some b →
        0 < b.header.root_count →
        ∃ b2, alGet s2.heap a = some b2 ∧ b2.header.marked = true) ∧
      ∀ a b2, alGet s2.heap a = some b2 → b2.header.marked = true →
        FieldsMarked s2 b2.val) ∧
    ∀ (t : GcState) (hid : HId) (hd : Gc) (b : GcBox) (n : Nat),
      alGet t.handles hid = some hd → alGet t.heap hd.gcbox = some b →
      b.header.marked = true → Gc.mark (n + 1) t hid = some t) :=
  marking_phase_correct cyclePairUnmarked [0, 1] (by unfold WfS; decide) (by decide)
    (by decide)
